import Mathlib

/-!
# Verification of the spatio-temporal-brain dataset pipeline

Shallow embedding of the core of `src/datasets.py`:

* `threshold_adj_array` / `create_thresholded_graph` — the thresholded-graph
  builder (lines 41–58, 137–140);
* `random_downsample` — the class-balancing step (lines 61–82);
* `calculate_stats_features` — the descriptor bank (lines 84–116);
* `normalise_timeseries` — the normalizer (lines 118–134);
* the subject loop of `UKBDataset.process` (lines 317–361).

Matrices handed to numpy are modelled as total functions `ℕ → ℕ → ℚ`
together with an explicit dimension `n` (entries outside the `n × n` block
are junk the numpy operations never touch), or as `List (List ℚ)` where
row structure matters.  Machine floats are modelled by exact rationals;
`int(x)` on a non-negative value is `Nat` floor division.  Calls into
external libraries whose outputs are irrational or float-specific (the
entropy/fractal descriptors, `scipy` skew/kurtosis, `numpy` std) are
parameters of the embedding; everything the repository computes itself is
concrete and executable.
-/

namespace SpatioTemporalBrain

/-! ## Thresholded-graph builder (`datasets.py`, `threshold_adj_array`)

Python (lines 41–58), operating in place on the caller's `n × n` array:

```
num_to_filter = int((threshold / 100.0) * (num_nodes * (num_nodes - 1) / 2))
adj_array[np.tril_indices(num_nodes)] = 0
indices = np.where(adj_array)
sorted_indices = np.argsort(adj_array[indices])[::-1]
adj_array[(indices[0][sorted_indices][num_to_filter:],
           indices[1][sorted_indices][num_to_filter:])] = 0
adj_array = adj_array + adj_array.T          -- fresh array from here on
adj_array[np.diag_indices(num_nodes)] = 1.0
return adj_array
```
-/

/-- `int((threshold / 100.0) * (num_nodes * (num_nodes - 1) / 2))` in exact
arithmetic: `num_nodes * (num_nodes - 1)` is even, so the inner division is
exact and the truncation is the outer floor division. -/
def numToFilter (threshold n : ℕ) : ℕ :=
  threshold * (n * (n - 1) / 2) / 100

/-- `adj_array[np.tril_indices(num_nodes)] = 0`: zero every in-bounds entry
on or below the diagonal. -/
def trilZeroed (A : ℕ → ℕ → ℚ) (n : ℕ) : ℕ → ℕ → ℚ :=
  fun i j => if i < n ∧ j < n ∧ j ≤ i then 0 else A i j

/-- All positions of an `n × n` array in row-major (C) order, the order in
which `np.where` reports them. -/
def allPositions (n : ℕ) : List (ℕ × ℕ) :=
  (List.range n) ×ˢ (List.range n)

/-- `np.where(M)` on the `n × n` block: positions of the nonzero entries,
in row-major order. -/
def whereNonzero (M : ℕ → ℕ → ℚ) (n : ℕ) : List (ℕ × ℕ) :=
  (allPositions n).filter (fun p => decide (M p.1 p.2 ≠ 0))

/-- `indices[sorted_indices]` with `argsort(...)[::-1]`: the nonzero
positions ranked by descending entry value.  numpy's default sort is not
stable, so the tie order among equal values is implementation-defined;
insertion sort fixes one deterministic tie-break, which no claim depends
on. -/
def sortedByValueDesc (M : ℕ → ℕ → ℚ) (l : List (ℕ × ℕ)) : List (ℕ × ℕ) :=
  l.insertionSort (fun p q => M q.1 q.2 ≤ M p.1 p.2)

/-- The positions surviving the cut: the first `num_to_filter` of the
descending ranking (everything from index `num_to_filter` on is zeroed). -/
def keptPositions (A : ℕ → ℕ → ℚ) (threshold n : ℕ) : List (ℕ × ℕ) :=
  (sortedByValueDesc (trilZeroed A n)
    (whereNonzero (trilZeroed A n) n)).take (numToFilter threshold n)

/-- State of the caller's array after the zeroing on line 50: a position
keeps its (tril-zeroed) value iff it survived the cut; positions outside
the `n × n` block are untouched.  Line 53 rebinds the local name to a fresh
array, so this is the final state of the caller's argument. -/
def keptArray (A : ℕ → ℕ → ℚ) (threshold n : ℕ) : ℕ → ℕ → ℚ :=
  fun i j =>
    if i < n ∧ j < n then
      (if (i, j) ∈ keptPositions A threshold n then trilZeroed A n i j else 0)
    else A i j

/-- `adj_array + adj_array.T`: a fresh `n × n` array. -/
def symmetrized (U : ℕ → ℕ → ℚ) (n : ℕ) : ℕ → ℕ → ℚ :=
  fun i j => if i < n ∧ j < n then U i j + U j i else 0

/-- `adj_array[np.diag_indices(num_nodes)] = 1.0`. -/
def withSelfLoops (S : ℕ → ℕ → ℚ) (n : ℕ) : ℕ → ℕ → ℚ :=
  fun i j => if i < n ∧ j < n then (if i = j then 1 else S i j) else 0

/-- The matrix returned by `threshold_adj_array`. -/
def threshold_adj_array (A : ℕ → ℕ → ℚ) (threshold n : ℕ) : ℕ → ℕ → ℚ :=
  withSelfLoops (symmetrized (keptArray A threshold n) n) n

/-- The caller's array object after `threshold_adj_array` returns: it was
mutated in place on lines 45 and 50 and never restored (line 53 creates a
new array bound to the local name only). -/
def callerArrayAfterCall (A : ℕ → ℕ → ℚ) (threshold n : ℕ) : ℕ → ℕ → ℚ :=
  keptArray A threshold n

/-- `nx.from_numpy_array(_, create_using=nx.DiGraph)` puts an edge `(i, j)`
exactly at the nonzero entries of the `n × n` array
(`create_thresholded_graph`, lines 137–140). -/
def hasEdge (A : ℕ → ℕ → ℚ) (threshold n : ℕ) (i j : ℕ) : Prop :=
  i < n ∧ j < n ∧ threshold_adj_array A threshold n i j ≠ 0

/-- The edges of the thresholded graph that are not self-loops. -/
def offDiagEdges (A : ℕ → ℕ → ℚ) (threshold n : ℕ) : Finset (ℕ × ℕ) :=
  ((Finset.range n) ×ˢ (Finset.range n)).filter
    (fun p => p.1 ≠ p.2 ∧ threshold_adj_array A threshold n p.1 p.2 ≠ 0)

/-- The strictly-upper-triangular positions of the `n × n` block
(auxiliary for counting). -/
def strictUpperFinset (n : ℕ) : Finset (ℕ × ℕ) :=
  ((Finset.range n) ×ˢ (Finset.range n)).filter (fun p => p.1 < p.2)

/-- A concrete 2 × 2 matrix `[[1, 2], [3, 4]]` used as input for the
counterexamples and witnesses about the builder. -/
def exampleMatrix : ℕ → ℕ → ℚ := fun i j =>
  if i = 0 ∧ j = 0 then 1 else if i = 0 ∧ j = 1 then 2
  else if i = 1 ∧ j = 0 then 3 else if i = 1 ∧ j = 1 then 4 else 0

/-! ## Class balancing (`datasets.py`, `random_downsample`, lines 61–82)

The numpy generator `default_rng(seed=0).choice(n, size=k, replace=False)`
is a deterministic pure function of `(n, k)`; its PCG64 internals are
outside the repository, so the draw is a parameter `choice` about which the
theorems assume only its documented contract (`k` distinct values below
`n`). -/

/-- One element of `data_list`: a sample with its binary label `y`. -/
structure DataSample where
  y : ℕ
  sampleIndex : ℕ
deriving DecidableEq

/-- The documented contract of `default_rng(seed=0).choice(n, size=k,
replace=False)`: `k` distinct values, all below `n`. -/
def ValidChoice (choice : ℕ → ℕ → List ℕ) : Prop :=
  ∀ n k, k ≤ n → (choice n k).Nodup ∧ (choice n k).length = k ∧
    ∀ m ∈ choice n k, m < n

/-- `negative_num` (line 62): number of samples with label 0. -/
def negativeNum (l : List DataSample) : ℕ :=
  (l.filter (fun x => decide (x.y = 0))).length

/-- `positive_num` (line 63): number of samples with label 1. -/
def positiveNum (l : List DataSample) : ℕ :=
  (l.filter (fun x => decide (x.y = 1))).length

/-- `smallest_value` (line 67): the minority label. -/
def smallestValue (l : List DataSample) : ℕ :=
  if positiveNum l < negativeNum l then 1 else 0

/-- `highest_value` (line 68): the majority label. -/
def highestValue (l : List DataSample) : ℕ :=
  if positiveNum l < negativeNum l then 0 else 1

/-- `negative_num` after the conditional swap on lines 70–71: the majority
class size, first argument of `rng.choice`. -/
def majorityCount (l : List DataSample) : ℕ :=
  if positiveNum l > negativeNum l then positiveNum l else negativeNum l

/-- `positive_num` after the conditional swap on lines 70–71: the minority
class size, the `size=` argument of `rng.choice`. -/
def minorityCount (l : List DataSample) : ℕ :=
  if positiveNum l > negativeNum l then negativeNum l else positiveNum l

/-- `random_downsample` (lines 61–82): keep every sample of the minority
label, then the majority-label samples whose position (in `enumerate`
order over the majority sublist) was drawn by
`rng.choice(majority, size=minority, replace=False)`. -/
def random_downsample (choice : ℕ → ℕ → List ℕ)
    (data_list : List DataSample) : List DataSample :=
  data_list.filter (fun x => decide (x.y = smallestValue data_list)) ++
    ((data_list.filter (fun x => decide (x.y = highestValue data_list))).enum.filter
      (fun p => decide (p.1 ∈ choice (majorityCount data_list) (minorityCount data_list)))).map
      Prod.snd

/-- A concrete valid draw (sampling the first `k` indices), used for
witnesses only; the theorems hold for any `ValidChoice`. -/
def rangeChoice : ℕ → ℕ → List ℕ := fun _ k => List.range k

/-- A concrete imbalanced data list (labels 0, 1, 0) for witnesses. -/
def sampleList : List DataSample := [⟨0, 0⟩, ⟨1, 1⟩, ⟨0, 2⟩]

/-! ## Normalizer (`datasets.py`, `normalise_timeseries`, lines 118–134)

The input is a `time × node` block as `List (List ℚ)` (rows = timepoints).
`sklearn.RobustScaler` centers on the median and scales by the
interquartile range, per column for `fit(timeseries)` and over the whole
flattened block for the `SUBJECT` mode; a zero IQR is replaced by a unit
scale.  Quantiles use numpy's linear interpolation, exact in `ℚ`. -/

/-- Number of columns of a rectangular `List (List ℚ)` array. -/
def numCols (m : List (List ℚ)) : ℕ :=
  match m with
  | [] => 0
  | r :: _ => r.length

/-- numpy transpose of a rectangular array. -/
def transposeM (m : List (List ℚ)) : List (List ℚ) :=
  (List.range (numCols m)).map (fun j => m.map (fun r => r.getD j 0))

/-- numpy percentile with linear interpolation: the value at fractional
position `q / 100 * (len - 1)` of the sorted data. -/
def percentile (v : List ℚ) (q : ℚ) : ℚ :=
  let s := v.insertionSort (fun a b => a ≤ b)
  if s.length = 0 then 0
  else
    let pos : ℚ := q / 100 * ((s.length : ℚ) - 1)
    let frac : ℚ := pos - (⌊pos⌋ : ℚ)
    (1 - frac) * s.getD (Int.toNat ⌊pos⌋) 0 + frac * s.getD (Int.toNat ⌈pos⌉) 0

/-- RobustScaler center: the median. -/
def robustCenter (v : List ℚ) : ℚ := percentile v 50

/-- RobustScaler scale: the interquartile range, with a zero range replaced
by 1 (sklearn `_handle_zeros_in_scale`). -/
def robustScale (v : List ℚ) : ℚ :=
  let iqr := percentile v 75 - percentile v 25
  if iqr = 0 then 1 else iqr

/-- Column `j` of the block, the unit RobustScaler fits on in ROI mode. -/
def columnOf (m : List (List ℚ)) (j : ℕ) : List ℚ :=
  m.map (fun r => r.getD j 0)

/-- `RobustScaler().fit(timeseries)` then `transform(timeseries)`:
entrywise `(x - center_j) / scale_j` with per-column statistics. -/
def robustScaleColumns (m : List (List ℚ)) : List (List ℚ) :=
  m.map (fun r =>
    r.enum.map (fun p =>
      (p.2 - robustCenter (columnOf m p.1)) / robustScale (columnOf m p.1)))

/-- Row-major reshape of a flat list back into rows of the given lengths
(`reshape(timeseries.shape)` after the flatten). -/
def reshapeRows : List ℕ → List ℚ → List (List ℚ)
  | [], _ => []
  | k :: ks, xs => xs.take k :: reshapeRows ks (xs.drop k)

/-- The SUBJECT branch: flatten to one column, fit a single RobustScaler
over all values, transform, reshape back to the original shape. -/
def robustScalePooled (m : List (List ℚ)) : List (List ℚ) :=
  let flat := m.flatten
  let c := robustCenter flat
  let s := robustScale flat
  reshapeRows (m.map List.length) (flat.map (fun x => (x - c) / s))

/-- The three normalisation modes of `utils.Normalisation` accepted by
`BrainDataset` (ROI, SUBJECT, NONE). -/
inductive Normalisation where
  | roi : Normalisation
  | subject : Normalisation
  | nonorm : Normalisation
deriving DecidableEq

/-- `normalise_timeseries` (lines 118–134): transform according to the
mode, then transpose to node × time. -/
def normalise_timeseries (timeseries : List (List ℚ))
    (normalisation : Normalisation) : List (List ℚ) :=
  match normalisation with
  | Normalisation.roi => transposeM (robustScaleColumns timeseries)
  | Normalisation.subject => transposeM (robustScalePooled timeseries)
  | Normalisation.nonorm => transposeM timeseries

/-! ## Descriptor bank (`datasets.py`, `calculate_stats_features`,
lines 84–116)

The thirteen descriptors whose values are irrational or float-specific
(numpy `std`, scipy `skew`/`kurtosis`, the `entropy` package measures, the
fractal dimensions, `nolds.hurst_rs`) are opaque per-series functions; the
repository's own contribution — the assert, applying each descriptor along
axis 1, `np.vstack`, transpose — is concrete. -/

/-- The external per-series descriptor implementations. -/
structure ExternalDescriptors where
  std : List ℚ → ℚ
  skew : List ℚ → ℚ
  kurtosis : List ℚ → ℚ
  app_entropy : List ℚ → ℚ
  perm_entropy : List ℚ → ℚ
  sample_entropy : List ℚ → ℚ
  spectral_entropy : List ℚ → ℚ
  svd_entropy : List ℚ → ℚ
  detrended_fluctuation : List ℚ → ℚ
  higuchi_fd : List ℚ → ℚ
  katz_fd : List ℚ → ℚ
  petrosian_fd : List ℚ → ℚ
  hurst_rs : List ℚ → ℚ

/-- `timeseries.mean(axis=1)` on one row. -/
def npMean (r : List ℚ) : ℚ := r.sum / r.length

/-- `timeseries.min(axis=1)` on one row. -/
def npMin (r : List ℚ) : ℚ :=
  match r with
  | [] => 0
  | x :: xs => xs.foldl min x

/-- `timeseries.max(axis=1)` on one row. -/
def npMax (r : List ℚ) : ℚ :=
  match r with
  | [] => 0
  | x :: xs => xs.foldl max x

/-- `np.vstack(merged_stats)` before the transpose: the sixteen per-node
statistic vectors, stacked in the order of lines 86–114. -/
def mergedStats (D : ExternalDescriptors) (ts : List (List ℚ)) :
    List (List ℚ) :=
  [ts.map npMean, ts.map D.std, ts.map npMin, ts.map npMax,
   ts.map D.skew, ts.map D.kurtosis, ts.map D.app_entropy,
   ts.map D.perm_entropy, ts.map D.sample_entropy, ts.map D.spectral_entropy,
   ts.map D.svd_entropy, ts.map D.detrended_fluctuation, ts.map D.higuchi_fd,
   ts.map D.katz_fd, ts.map D.petrosian_fd, ts.map D.hurst_rs]

/-- The message of the failing `assert timeseries.shape[1] >
timeseries.shape[0]` on line 85. -/
def statsAssertMsg : String := "assert timeseries.shape[1] > timeseries.shape[0]"

/-- `calculate_stats_features` (lines 84–116): assert strictly more
timepoints than nodes, then stack the sixteen statistics and transpose. -/
def calculate_stats_features (D : ExternalDescriptors)
    (timeseries : List (List ℚ)) : Except String (List (List ℚ)) :=
  if timeseries.length < numCols timeseries then
    Except.ok (transposeM (mergedStats D timeseries))
  else Except.error statsAssertMsg

/-- All-zero external descriptors, used in witnesses only. -/
def zeroDescriptors : ExternalDescriptors where
  std := fun _ => 0
  skew := fun _ => 0
  kurtosis := fun _ => 0
  app_entropy := fun _ => 0
  perm_entropy := fun _ => 0
  sample_entropy := fun _ => 0
  spectral_entropy := fun _ => 0
  svd_entropy := fun _ => 0
  detrended_fluctuation := fun _ => 0
  higuchi_fd := fun _ => 0
  katz_fd := fun _ => 0
  petrosian_fd := fun _ => 0
  hurst_rs := fun _ => 0

/-! ## UKB subject loop (`UKBDataset.process`, lines 317–361)

Per subject: load the raw series; `if ts.shape[0] < 84: continue`;
`elif ts.shape[1] == 523: ts = ts[:, :490]`;
`assert ts.shape == (84, 490)`; then build the sample and append it.  A
failing assert propagates out of `process` and aborts the whole run; the
loop keeps no count of skipped subjects. -/

/-- A UKB subject as the loop sees it: its id and the shape of its raw
time-series file. -/
structure UKBSubject where
  subjectId : ℕ
  tsRows : ℕ
  tsCols : ℕ
deriving DecidableEq

/-- The sample appended to `data_list` for one subject (the parts of the
`Data` object irrelevant to the control flow are elided). -/
structure UKBSample where
  subjectId : ℕ
deriving DecidableEq

/-- The message of the failing `assert ts.shape == (84, 490)` on line 335. -/
def ukbShapeAssertMsg : String := "assert ts.shape == (84, 490)"

/-- One iteration of the subject loop: skip (`none`), produce a sample, or
raise the shape assertion. -/
def ukbProcessSubject (s : UKBSubject) : Except String (Option UKBSample) :=
  if s.tsRows < 84 then Except.ok Option.none
  else
    let cols := if s.tsCols = 523 then 490 else s.tsCols
    if s.tsRows = 84 ∧ cols = 490 then Except.ok (Option.some ⟨s.subjectId⟩)
    else Except.error ukbShapeAssertMsg

/-- The whole loop of `UKBDataset.process`: samples of the non-skipped
subjects in order, or the first assertion failure, which aborts the run. -/
def ukbProcess : List UKBSubject → Except String (List UKBSample)
  | [] => Except.ok []
  | s :: rest =>
    match ukbProcessSubject s with
    | Except.error e => Except.error e
    | Except.ok Option.none => ukbProcess rest
    | Except.ok (Option.some d) => Except.map (fun l => d :: l) (ukbProcess rest)

/-! ## Facts about the thresholded-graph builder -/

theorem mem_allPositions {n : ℕ} {p : ℕ × ℕ} :
    p ∈ allPositions n ↔ p.1 < n ∧ p.2 < n := by
  obtain ⟨i, j⟩ := p
  simp [allPositions, List.mem_product]

theorem allPositions_nodup (n : ℕ) : (allPositions n).Nodup :=
  (List.nodup_range n).product (List.nodup_range n)

theorem mem_whereNonzero_trilZeroed {A : ℕ → ℕ → ℚ} {n : ℕ} {p : ℕ × ℕ}
    (hp : p ∈ whereNonzero (trilZeroed A n) n) :
    p.1 < p.2 ∧ p.2 < n ∧ A p.1 p.2 ≠ 0 := by
  obtain ⟨hmem, hval⟩ := List.mem_filter.mp hp
  obtain ⟨h1, h2⟩ := mem_allPositions.mp hmem
  have hnz : trilZeroed A n p.1 p.2 ≠ 0 := by simpa using hval
  by_cases hle : p.2 ≤ p.1
  · exact absurd (by simp [trilZeroed, h1, h2, hle]) hnz
  · refine ⟨lt_of_not_le hle, h2, ?_⟩
    simpa [trilZeroed, h1, h2, hle] using hnz

theorem whereNonzero_nodup (M : ℕ → ℕ → ℚ) (n : ℕ) :
    (whereNonzero M n).Nodup :=
  (allPositions_nodup n).filter _

theorem mem_keptPositions {A : ℕ → ℕ → ℚ} {threshold n : ℕ} {p : ℕ × ℕ}
    (hp : p ∈ keptPositions A threshold n) :
    p.1 < p.2 ∧ p.2 < n ∧ A p.1 p.2 ≠ 0 := by
  have hmem : p ∈ whereNonzero (trilZeroed A n) n :=
    (List.perm_insertionSort _ _).mem_iff.mp (List.mem_of_mem_take hp)
  exact mem_whereNonzero_trilZeroed hmem

theorem keptPositions_nodup (A : ℕ → ℕ → ℚ) (threshold n : ℕ) :
    (keptPositions A threshold n).Nodup :=
  (((List.perm_insertionSort _ _).nodup_iff).mpr
    (whereNonzero_nodup _ n)).sublist (List.take_sublist _ _)

theorem keptPositions_length (A : ℕ → ℕ → ℚ) (threshold n : ℕ) :
    (keptPositions A threshold n).length =
      min (numToFilter threshold n) ((whereNonzero (trilZeroed A n) n).length) := by
  unfold keptPositions sortedByValueDesc
  rw [List.length_take, (List.perm_insertionSort _ _).length_eq]

theorem keptArray_eq_of_mem {A : ℕ → ℕ → ℚ} {threshold n : ℕ} {i j : ℕ}
    (hij : (i, j) ∈ keptPositions A threshold n) :
    keptArray A threshold n i j = A i j := by
  obtain ⟨hlt, hn, _⟩ := mem_keptPositions hij
  have hi : i < n := lt_trans hlt hn
  simp [keptArray, trilZeroed, hi, hn, hij, not_le.mpr hlt]

theorem keptArray_eq_zero_of_not_mem {A : ℕ → ℕ → ℚ} {threshold n : ℕ} {i j : ℕ}
    (hi : i < n) (hj : j < n) (hij : (i, j) ∉ keptPositions A threshold n) :
    keptArray A threshold n i j = 0 := by
  simp [keptArray, hi, hj, hij]

theorem threshold_adj_array_diag {A : ℕ → ℕ → ℚ} {threshold n : ℕ} {i : ℕ}
    (hi : i < n) : threshold_adj_array A threshold n i i = 1 := by
  simp [threshold_adj_array, withSelfLoops, hi]

/-- For a strictly-upper position the final entry is the kept original
value (the mirrored lower position can never be kept, so the transpose
contributes zero). -/
theorem threshold_adj_array_upper {A : ℕ → ℕ → ℚ} {threshold n : ℕ} {i j : ℕ}
    (hij : i < j) (hj : j < n) :
    threshold_adj_array A threshold n i j =
      if (i, j) ∈ keptPositions A threshold n then A i j else 0 := by
  have hi : i < n := lt_trans hij hj
  have hji : (j, i) ∉ keptPositions A threshold n := fun h =>
    absurd (mem_keptPositions h).1 (by omega)
  have hne : i ≠ j := Nat.ne_of_lt hij
  by_cases hk : (i, j) ∈ keptPositions A threshold n
  · simp [threshold_adj_array, withSelfLoops, symmetrized, hi, hj, hne, hk,
      keptArray_eq_of_mem hk, keptArray_eq_zero_of_not_mem hj hi hji]
  · simp [threshold_adj_array, withSelfLoops, symmetrized, hi, hj, hne, hk,
      keptArray_eq_zero_of_not_mem hi hj hk, keptArray_eq_zero_of_not_mem hj hi hji]

/-- The returned matrix is literally symmetric. -/
theorem threshold_adj_array_symm (A : ℕ → ℕ → ℚ) (threshold n : ℕ) (i j : ℕ) :
    threshold_adj_array A threshold n i j = threshold_adj_array A threshold n j i := by
  by_cases hij : i = j
  · simp [hij]
  · simp [threshold_adj_array, withSelfLoops, symmetrized, hij, Ne.symm hij,
      and_comm, add_comm]

theorem threshold_adj_array_ne_zero_iff {A : ℕ → ℕ → ℚ} {threshold n : ℕ}
    {i j : ℕ} (hi : i < n) (hj : j < n) (hne : i ≠ j) :
    threshold_adj_array A threshold n i j ≠ 0 ↔
      (min i j, max i j) ∈ keptPositions A threshold n := by
  rcases lt_or_gt_of_ne hne with h | h
  · rw [threshold_adj_array_upper h hj, min_eq_left h.le, max_eq_right h.le]
    by_cases hk : (i, j) ∈ keptPositions A threshold n
    · simpa [hk] using (mem_keptPositions hk).2.2
    · simp [hk]
  · rw [threshold_adj_array_symm, threshold_adj_array_upper h hi,
      min_eq_right h.le, max_eq_left h.le]
    by_cases hk : (j, i) ∈ keptPositions A threshold n
    · simpa [hk] using (mem_keptPositions hk).2.2
    · simp [hk]

theorem offDiagEdges_eq (A : ℕ → ℕ → ℚ) (threshold n : ℕ) :
    offDiagEdges A threshold n =
      (keptPositions A threshold n).toFinset ∪
        (keptPositions A threshold n).toFinset.image Prod.swap := by
  ext ⟨i, j⟩
  constructor
  · intro h
    obtain ⟨hmem, hne, hnz⟩ := Finset.mem_filter.mp h
    obtain ⟨hi, hj⟩ := Finset.mem_product.mp hmem
    rw [Finset.mem_range] at hi hj
    have hk := (threshold_adj_array_ne_zero_iff hi hj hne).mp hnz
    rcases lt_or_gt_of_ne hne with hlt | hlt
    · rw [min_eq_left hlt.le, max_eq_right hlt.le] at hk
      exact Finset.mem_union_left _ (List.mem_toFinset.mpr hk)
    · rw [min_eq_right hlt.le, max_eq_left hlt.le] at hk
      refine Finset.mem_union_right _ (Finset.mem_image.mpr ⟨(j, i), ?_, rfl⟩)
      exact List.mem_toFinset.mpr hk
  · intro h
    rcases Finset.mem_union.mp h with h | h
    · have hk := List.mem_toFinset.mp h
      obtain ⟨hlt, hn, hA⟩ := mem_keptPositions hk
      refine Finset.mem_filter.mpr ⟨?_, Nat.ne_of_lt hlt, ?_⟩
      · exact Finset.mem_product.mpr ⟨Finset.mem_range.mpr (lt_trans hlt hn),
          Finset.mem_range.mpr hn⟩
      · rw [threshold_adj_array_upper hlt hn]
        simpa [hk] using hA
    · obtain ⟨⟨a, b⟩, hmem, hswap⟩ := Finset.mem_image.mp h
      have hk := List.mem_toFinset.mp hmem
      obtain ⟨hlt, hn, hA⟩ := mem_keptPositions hk
      obtain ⟨rfl, rfl⟩ : b = i ∧ a = j := by
        simpa [Prod.swap, Prod.ext_iff] using hswap
      refine Finset.mem_filter.mpr ⟨?_, (Nat.ne_of_lt hlt).symm, ?_⟩
      · exact Finset.mem_product.mpr ⟨Finset.mem_range.mpr hn,
          Finset.mem_range.mpr (lt_trans hlt hn)⟩
      · rw [threshold_adj_array_symm, threshold_adj_array_upper hlt hn]
        simpa [hk] using hA

theorem offDiagEdges_card (A : ℕ → ℕ → ℚ) (threshold n : ℕ) :
    (offDiagEdges A threshold n).card = 2 * (keptPositions A threshold n).length := by
  rw [offDiagEdges_eq]
  have hnd := keptPositions_nodup A threshold n
  have hdisj : Disjoint (keptPositions A threshold n).toFinset
      ((keptPositions A threshold n).toFinset.image Prod.swap) := by
    rw [Finset.disjoint_left]
    rintro ⟨i, j⟩ h1 h2
    have hk1 := mem_keptPositions (List.mem_toFinset.mp h1)
    obtain ⟨⟨a, b⟩, hmem, hswap⟩ := Finset.mem_image.mp h2
    have hk2 := mem_keptPositions (List.mem_toFinset.mp hmem)
    obtain ⟨rfl, rfl⟩ : b = i ∧ a = j := by
      simpa [Prod.swap, Prod.ext_iff] using hswap
    omega
  rw [Finset.card_union_of_disjoint hdisj,
    Finset.card_image_of_injective _ Prod.swap_injective,
    List.toFinset_card_of_nodup hnd]
  ring

theorem strictUpperFinset_card (n : ℕ) :
    (strictUpperFinset n).card = n * (n - 1) / 2 := by
  have himg : ((strictUpperFinset n).image Prod.swap) =
      ((Finset.range n) ×ˢ (Finset.range n)).filter (fun p => p.2 < p.1) := by
    ext ⟨i, j⟩
    simp only [Finset.mem_image, strictUpperFinset, Finset.mem_filter,
      Finset.mem_product, Finset.mem_range, Prod.exists, Prod.swap_prod_mk,
      Prod.mk.injEq]
    constructor
    · rintro ⟨a, b, ⟨⟨ha, hb⟩, hab⟩, rfl, rfl⟩
      exact ⟨⟨hb, ha⟩, hab⟩
    · rintro ⟨⟨hi, hj⟩, hji⟩
      exact ⟨j, i, ⟨⟨hj, hi⟩, hji⟩, rfl, rfl⟩
  have hunion : (strictUpperFinset n) ∪ ((strictUpperFinset n).image Prod.swap) =
      (Finset.range n).offDiag := by
    rw [himg]
    ext ⟨i, j⟩
    simp only [Finset.mem_union, strictUpperFinset, Finset.mem_filter,
      Finset.mem_product, Finset.mem_range, Finset.mem_offDiag]
    omega
  have hdisj : Disjoint (strictUpperFinset n)
      ((strictUpperFinset n).image Prod.swap) := by
    rw [himg, Finset.disjoint_left]
    rintro ⟨i, j⟩ h1 h2
    simp only [strictUpperFinset, Finset.mem_filter] at h1 h2
    omega
  have hcard := Finset.card_union_of_disjoint hdisj
  rw [hunion, Finset.card_image_of_injective _ Prod.swap_injective,
    Finset.offDiag_card, Finset.card_range] at hcard
  have hb : n * n - n = n * (n - 1) := by
    cases n with
    | zero => simp
    | succ m =>
      have : (m + 1) * (m + 1) = (m + 1) * m + (m + 1) := by ring
      simp [Nat.succ_sub_one, this]
  omega

/-- When every strictly-upper entry is nonzero, `np.where` after the
lower-triangle zeroing finds exactly the `n (n - 1) / 2` strictly-upper
positions. -/
theorem whereNonzero_length_of_pos {A : ℕ → ℕ → ℚ} {n : ℕ}
    (hA : ∀ i j, i < j → j < n → A i j ≠ 0) :
    (whereNonzero (trilZeroed A n) n).length = n * (n - 1) / 2 := by
  rw [← List.toFinset_card_of_nodup (whereNonzero_nodup _ n),
    ← strictUpperFinset_card n]
  congr 1
  ext ⟨i, j⟩
  simp only [List.mem_toFinset, strictUpperFinset, Finset.mem_filter,
    Finset.mem_product, Finset.mem_range]
  constructor
  · intro h
    obtain ⟨hlt, hn, _⟩ := mem_whereNonzero_trilZeroed h
    exact ⟨⟨lt_trans hlt hn, hn⟩, hlt⟩
  · rintro ⟨⟨hi, hj⟩, hij⟩
    refine List.mem_filter.mpr ⟨mem_allPositions.mpr ⟨hi, hj⟩, ?_⟩
    have : trilZeroed A n i j = A i j := by
      simp [trilZeroed, not_le.mpr hij]
    simp [this, hA i j hij hj]

/-! ## Claims about the thresholded-graph builder -/

/-- C2: for every square matrix and threshold, the graph built by
`create_thresholded_graph` has a symmetric edge relation — edge `(i, j)` is
present iff edge `(j, i)` is — and every node index in `0..num_nodes-1`
has a self-loop. -/
theorem claim_C2_symmetric_selfloops (A : ℕ → ℕ → ℚ) (threshold n : ℕ) :
    (∀ i j, hasEdge A threshold n i j ↔ hasEdge A threshold n j i) ∧
    (∀ i, i < n → hasEdge A threshold n i i) := by
  constructor
  · intro i j
    unfold hasEdge
    rw [threshold_adj_array_symm]
    tauto
  · intro i hi
    exact ⟨hi, hi, by rw [threshold_adj_array_diag hi]; norm_num⟩

/-- C2 witness: the symmetry and self-loop facts instantiated on the
concrete matrix `[[1, 2], [3, 4]]` with threshold 50. -/
theorem claim_C2_witness :
    (hasEdge exampleMatrix 50 2 0 1 ↔ hasEdge exampleMatrix 50 2 1 0) ∧
    hasEdge exampleMatrix 50 2 0 0 :=
  ⟨(claim_C2_symmetric_selfloops exampleMatrix 50 2).1 0 1,
   (claim_C2_symmetric_selfloops exampleMatrix 50 2).2 0 (by norm_num)⟩

/-- C1 counterexample: the all-zero matrix is square and non-negative, yet
at `n = 2`, `threshold = 100` the builder produces no off-diagonal edge at
all, while the claimed count `2 * floor(threshold/100 * n*(n-1)/2)` is 2.
The claim fails because only *nonzero* entries can become edges. -/
theorem claim_C1_counterexample :
    (offDiagEdges (fun _ _ => (0 : ℚ)) 100 2).card ≠ 2 * numToFilter 100 2 := by
  have hwz : whereNonzero (trilZeroed (fun _ _ => (0 : ℚ)) 2) 2 = [] := by
    apply List.filter_eq_nil_iff.mpr
    intro p _
    simp [trilZeroed]
  have hlen := keptPositions_length (fun _ _ => (0 : ℚ)) 100 2
  rw [hwz] at hlen
  simp only [List.length_nil, min_zero] at hlen
  rw [offDiagEdges_card, hlen]
  decide

/-- C1 (amended): for every matrix all of whose strictly-upper entries are
nonzero (in particular every strictly positive matrix) and every threshold
in `[0, 100]`, the off-diagonal edge count is exactly
`2 * floor(threshold/100 * n*(n-1)/2)`. -/
theorem claim_C1_edge_count (A : ℕ → ℕ → ℚ) (threshold n : ℕ)
    (hA : ∀ i j, i < j → j < n → A i j ≠ 0) (ht : threshold ≤ 100) :
    (offDiagEdges A threshold n).card = 2 * numToFilter threshold n := by
  rw [offDiagEdges_card, keptPositions_length, whereNonzero_length_of_pos hA]
  have hle : numToFilter threshold n ≤ n * (n - 1) / 2 := by
    unfold numToFilter
    calc threshold * (n * (n - 1) / 2) / 100
        ≤ 100 * (n * (n - 1) / 2) / 100 :=
          Nat.div_le_div_right (Nat.mul_le_mul_right _ ht)
      _ = n * (n - 1) / 2 := Nat.mul_div_cancel_left _ (by norm_num)
  rw [min_eq_left hle]

/-- C1 witness: on the all-ones 3 × 3 matrix with threshold 50 the
off-diagonal edge count is `2 * floor(0.5 * 3) = 2`. -/
theorem claim_C1_witness :
    (offDiagEdges (fun _ _ => (1 : ℚ)) 50 3).card = 2 * numToFilter 50 3 :=
  claim_C1_edge_count (fun _ _ => (1 : ℚ)) 50 3
    (fun _ _ _ _ => one_ne_zero) (by norm_num)

/-- C3 counterexample: on the all-zero (square, non-negative) matrix with
threshold 100 and `n = 2` the builder does not produce the complete graph:
the edge `(0, 1)` is missing, because a zero entry is never selected. -/
theorem claim_C3_counterexample : ¬ hasEdge (fun _ _ => (0 : ℚ)) 100 2 0 1 := by
  rintro ⟨-, -, hnz⟩
  rw [threshold_adj_array_upper (by norm_num) (by norm_num)] at hnz
  exact hnz (by split <;> rfl)

/-- C3 (amended): threshold 0 yields exactly the self-loops for every
matrix; threshold 100 yields the complete graph plus self-loops provided
every strictly-upper entry of the matrix is nonzero. -/
theorem claim_C3_extremes (A : ℕ → ℕ → ℚ) (n : ℕ)
    (hA : ∀ i j, i < j → j < n → A i j ≠ 0) :
    (∀ (B : ℕ → ℕ → ℚ) (i j : ℕ), hasEdge B 0 n i j ↔ i = j ∧ i < n) ∧
    (∀ i j, i < n → j < n → hasEdge A 100 n i j) := by
  constructor
  · intro B i j
    constructor
    · rintro ⟨hi, hj, hnz⟩
      by_cases hij : i = j
      · exact ⟨hij, hi⟩
      · exfalso
        have hmem := (threshold_adj_array_ne_zero_iff hi hj hij).mp hnz
        have : keptPositions B 0 n = [] := by
          unfold keptPositions numToFilter
          simp
        rw [this] at hmem
        exact absurd hmem (List.not_mem_nil _)
    · rintro ⟨rfl, hi⟩
      exact ⟨hi, hi, by rw [threshold_adj_array_diag hi]; norm_num⟩
  · intro i j hi hj
    by_cases hij : i = j
    · subst hij
      exact ⟨hi, hi, by rw [threshold_adj_array_diag hi]; norm_num⟩
    · refine ⟨hi, hj, (threshold_adj_array_ne_zero_iff hi hj hij).mpr ?_⟩
      have hm : numToFilter 100 n = n * (n - 1) / 2 := by
        unfold numToFilter
        exact Nat.mul_div_cancel_left _ (by norm_num)
      have hfull : keptPositions A 100 n =
          sortedByValueDesc (trilZeroed A n) (whereNonzero (trilZeroed A n) n) := by
        unfold keptPositions
        apply List.take_of_length_le
        unfold sortedByValueDesc
        rw [(List.perm_insertionSort _ _).length_eq,
          whereNonzero_length_of_pos hA, hm]
      rw [hfull]
      apply ((List.perm_insertionSort _ _).mem_iff).mpr
      have hlt : min i j < max i j := by omega
      have hmax : max i j < n := by omega
      refine List.mem_filter.mpr ⟨mem_allPositions.mpr ⟨by omega, by omega⟩, ?_⟩
      have htz : trilZeroed A n (min i j) (max i j) = A (min i j) (max i j) := by
        simp [trilZeroed, not_le.mpr hlt]
      simp [htz, hA _ _ hlt hmax]

/-- C3 witness: for the matrix `[[1, 2], [3, 4]]` (all upper entries
nonzero), threshold 0 gives the self-loop `(0, 0)` and no `(0, 1)` edge,
and threshold 100 gives the `(0, 1)` edge. -/
theorem claim_C3_witness :
    (hasEdge exampleMatrix 0 2 0 0 ↔ 0 = 0 ∧ 0 < 2) ∧
    (hasEdge exampleMatrix 0 2 0 1 ↔ 0 = 1 ∧ 0 < 2) ∧
    hasEdge exampleMatrix 100 2 0 1 :=
  have h := claim_C3_extremes exampleMatrix 2
    (by
      intro i j hij hj
      obtain ⟨rfl, rfl⟩ : i = 0 ∧ j = 1 := by omega
      norm_num [exampleMatrix])
  ⟨h.1 exampleMatrix 0 0, h.1 exampleMatrix 0 1, h.2 0 1 (by norm_num) (by norm_num)⟩

/-- C8 counterexample: `threshold_adj_array` is not pure — it zeroes the
caller's array in place.  On input `[[1, 2], [3, 4]]` with threshold 100
the caller's entry `(0, 0)` is 1 before the call and 0 after it. -/
theorem claim_C8_counterexample :
    callerArrayAfterCall exampleMatrix 100 2 0 0 ≠ exampleMatrix 0 0 := by
  have h0 : callerArrayAfterCall exampleMatrix 100 2 0 0 = 0 :=
    keptArray_eq_zero_of_not_mem (by norm_num) (by norm_num)
      (fun h => by have := (mem_keptPositions h).1; omega)
  rw [h0]
  norm_num [exampleMatrix]

/-- C8 (amended): the call mutates the caller's matrix in place: on return
every in-bounds entry on or below the diagonal is zero, every
strictly-upper entry that was not among the kept top-K is zero, and each
kept entry retains its original value. -/
theorem claim_C8_mutation (A : ℕ → ℕ → ℚ) (threshold n i j : ℕ)
    (hi : i < n) (hj : j < n) :
    (j ≤ i → callerArrayAfterCall A threshold n i j = 0) ∧
    ((i, j) ∈ keptPositions A threshold n →
      callerArrayAfterCall A threshold n i j = A i j) ∧
    ((i, j) ∉ keptPositions A threshold n →
      callerArrayAfterCall A threshold n i j = 0) := by
  refine ⟨fun hle => ?_, fun hmem => keptArray_eq_of_mem hmem,
    fun hmem => keptArray_eq_zero_of_not_mem hi hj hmem⟩
  exact keptArray_eq_zero_of_not_mem hi hj
    (fun h => by have := (mem_keptPositions h).1; omega)

/-- C8 witness: the mutation facts at the concrete entry `(1, 0)` of
`[[1, 2], [3, 4]]`: a lower-triangle entry is zeroed by the call. -/
theorem claim_C8_witness :
    callerArrayAfterCall exampleMatrix 100 2 1 0 = 0 :=
  (claim_C8_mutation exampleMatrix 100 2 1 0 (by norm_num) (by norm_num)).1
    (by norm_num)

/-! ## Claims about the UKB subject loop -/

/-- C5 counterexample: a subject whose series length (number of columns,
500) mismatches the configured time length 490 — and is not the special
truncatable length 523 — is *not* skipped: the shape assertion fires and
the whole run aborts with an error; no skip counter exists anywhere in the
loop. -/
theorem claim_C5_counterexample :
    ukbProcess [⟨1, 84, 500⟩] = Except.error ukbShapeAssertMsg := rfl

/-- C5 (amended): a subject whose series has fewer than 84 rows is skipped
— no sample of it enters the collection and the run continues exactly as
without it — while a subject with at least 84 rows whose shape after the
523 → 490 truncation is not `(84, 490)` aborts the entire run with the
shape assertion error.  The loop keeps no skip counter. -/
theorem claim_C5_skip_behaviour (s : UKBSubject) (rest : List UKBSubject) :
    (s.tsRows < 84 → ukbProcess (s :: rest) = ukbProcess rest) ∧
    (84 ≤ s.tsRows → (s.tsRows ≠ 84 ∨ ((if s.tsCols = 523 then 490 else s.tsCols) ≠ 490)) →
      ukbProcess (s :: rest) = Except.error ukbShapeAssertMsg) := by
  constructor
  · intro hlt
    show (match ukbProcessSubject s with
      | Except.error e => Except.error e
      | Except.ok Option.none => ukbProcess rest
      | Except.ok (Option.some d) => Except.map (fun l => d :: l) (ukbProcess rest)) =
      ukbProcess rest
    rw [ukbProcessSubject, if_pos hlt]
  · intro hge hbad
    show (match ukbProcessSubject s with
      | Except.error e => Except.error e
      | Except.ok Option.none => ukbProcess rest
      | Except.ok (Option.some d) => Except.map (fun l => d :: l) (ukbProcess rest)) =
      Except.error ukbShapeAssertMsg
    rw [ukbProcessSubject, if_neg (by omega)]
    have hcond : ¬ (s.tsRows = 84 ∧ (if s.tsCols = 523 then 490 else s.tsCols) = 490) := by
      tauto
    simp only [hcond, if_false]

/-- C5 witness: a subject with 80 rows is skipped (run result unchanged),
and a subject with 84 rows but 500 columns aborts the loop over the same
remaining subjects. -/
theorem claim_C5_witness :
    ukbProcess [⟨7, 80, 490⟩, ⟨8, 84, 490⟩] = ukbProcess [⟨8, 84, 490⟩] ∧
    ukbProcess [⟨9, 84, 500⟩, ⟨8, 84, 490⟩] = Except.error ukbShapeAssertMsg :=
  ⟨(claim_C5_skip_behaviour ⟨7, 80, 490⟩ [⟨8, 84, 490⟩]).1 (by norm_num),
   (claim_C5_skip_behaviour ⟨9, 84, 500⟩ [⟨8, 84, 490⟩]).2 (by norm_num)
     (by norm_num)⟩

/-! ## Claims about the class balancing -/

theorem length_filter_range_mem {L : ℕ} {ns : List ℕ} (hnd : ns.Nodup)
    (hlt : ∀ m ∈ ns, m < L) :
    ((List.range L).filter (fun i => decide (i ∈ ns))).length = ns.length := by
  have h1 : ((List.range L).filter (fun i => decide (i ∈ ns))).Nodup :=
    (List.nodup_range L).filter _
  rw [← List.toFinset_card_of_nodup h1, ← List.toFinset_card_of_nodup hnd]
  congr 1
  ext x
  simp only [List.mem_toFinset, List.mem_filter, List.mem_range, decide_eq_true_eq]
  exact ⟨fun h => h.2, fun h => ⟨hlt x h, h⟩⟩

/-- Keeping the positions of `enumerate(l)` whose index was drawn keeps
exactly one element per drawn index (all indices distinct and in range). -/
theorem length_enum_filter {α : Type} (l : List α) (ns : List ℕ) (hnd : ns.Nodup)
    (hlt : ∀ m ∈ ns, m < l.length) :
    (l.enum.filter (fun p => decide (p.1 ∈ ns))).length = ns.length := by
  have h2 := List.filter_map (p := fun i => decide (i ∈ ns))
    (Prod.fst : ℕ × α → ℕ) l.enum
  have h3 := congrArg List.length h2
  rw [List.length_map, List.enum_map_fst] at h3
  have h4 : (List.filter ((fun i => decide (i ∈ ns)) ∘ Prod.fst) l.enum) =
      (l.enum.filter (fun p => decide (p.1 ∈ ns))) := rfl
  rw [h4] at h3
  rw [← h3, length_filter_range_mem hnd hlt]

theorem minorityCount_eq (l : List DataSample) :
    minorityCount l = min (negativeNum l) (positiveNum l) := by
  unfold minorityCount
  split <;> omega

theorem minority_le_majority (l : List DataSample) :
    minorityCount l ≤ majorityCount l := by
  by_cases h : positiveNum l > negativeNum l <;>
    simp [minorityCount, majorityCount, h] <;> omega

theorem smallest_ne_highest (l : List DataSample) :
    smallestValue l ≠ highestValue l := by
  by_cases h : positiveNum l < negativeNum l <;>
    simp [smallestValue, highestValue, h]

/-- The majority sublist `y_0` has exactly `majorityCount` elements. -/
theorem highest_filter_length (l : List DataSample) :
    (l.filter (fun x => decide (x.y = highestValue l))).length = majorityCount l := by
  by_cases h : positiveNum l < negativeNum l
  · have hh : highestValue l = 0 := by simp [highestValue, h]
    have hm : majorityCount l = negativeNum l := by
      simp only [majorityCount, if_neg (by omega : ¬ positiveNum l > negativeNum l)]
    rw [hh, hm]
    rfl
  · have hh : highestValue l = 1 := by simp [highestValue, h]
    rw [hh]
    by_cases h2 : positiveNum l > negativeNum l
    · have hm : majorityCount l = positiveNum l := by
        simp only [majorityCount, if_pos h2]
      rw [hm]
      rfl
    · have hm : majorityCount l = negativeNum l := by
        simp only [majorityCount, if_neg h2]
      have he : positiveNum l = negativeNum l := by omega
      rw [hm, ← he]
      rfl

/-- C6: the class-balancing step is deterministic (it is a pure function of
its input and the fixed-seed draw), preserves every minority-label sample
(as a prefix of the result), and outputs equally many samples of both
labels — each the minority count. -/
theorem claim_C6_downsample (choice : ℕ → ℕ → List ℕ) (hc : ValidChoice choice)
    (l : List DataSample) (_hbin : ∀ x ∈ l, x.y = 0 ∨ x.y = 1) :
    (∀ l2, l2 = l → random_downsample choice l2 = random_downsample choice l) ∧
    (l.filter (fun x => decide (x.y = smallestValue l))) <+:
      random_downsample choice l ∧
    ((random_downsample choice l).filter (fun x => decide (x.y = 0))).length =
      min (negativeNum l) (positiveNum l) ∧
    ((random_downsample choice l).filter (fun x => decide (x.y = 1))).length =
      min (negativeNum l) (positiveNum l) := by
  obtain ⟨hnd, hlen, hbound⟩ :=
    hc (majorityCount l) (minorityCount l) (minority_le_majority l)
  have hy0len := highest_filter_length l
  have hmajlen :
      (((l.filter (fun x => decide (x.y = highestValue l))).enum.filter
        (fun p => decide (p.1 ∈ choice (majorityCount l) (minorityCount l)))).map
        Prod.snd).length = minorityCount l := by
    rw [List.length_map,
      length_enum_filter _ _ hnd (fun m hm => hy0len ▸ hbound m hm), hlen]
  have hmaj_labels : ∀ x ∈ ((l.filter (fun x => decide (x.y = highestValue l))).enum.filter
      (fun p => decide (p.1 ∈ choice (majorityCount l) (minorityCount l)))).map
      Prod.snd, x.y = highestValue l := by
    intro x hx
    obtain ⟨p, hp, rfl⟩ := List.mem_map.mp hx
    have hpy : p ∈ (l.filter (fun x => decide (x.y = highestValue l))).enum :=
      List.mem_of_mem_filter hp
    have hsnd : p.2 ∈ l.filter (fun x => decide (x.y = highestValue l)) := by
      have := List.mem_enum_iff_getElem?.mp hpy
      exact List.getElem?_mem this
    simpa using (List.mem_filter.mp hsnd).2
  have e1 : (random_downsample choice l).filter
      (fun x => decide (x.y = smallestValue l)) =
      l.filter (fun x => decide (x.y = smallestValue l)) := by
    unfold random_downsample
    rw [List.filter_append]
    have ha : (l.filter (fun x => decide (x.y = smallestValue l))).filter
        (fun x => decide (x.y = smallestValue l)) =
        l.filter (fun x => decide (x.y = smallestValue l)) :=
      List.filter_eq_self.mpr (fun a ha => (List.mem_filter.mp ha).2)
    have hb : (((l.filter (fun x => decide (x.y = highestValue l))).enum.filter
        (fun p => decide (p.1 ∈ choice (majorityCount l) (minorityCount l)))).map
        Prod.snd).filter (fun x => decide (x.y = smallestValue l)) = [] := by
      apply List.filter_eq_nil_iff.mpr
      intro a ha
      have := hmaj_labels a ha
      simp [this, Ne.symm (smallest_ne_highest l)]
    rw [ha, hb, List.append_nil]
  have e2 : (random_downsample choice l).filter
      (fun x => decide (x.y = highestValue l)) =
      ((l.filter (fun x => decide (x.y = highestValue l))).enum.filter
        (fun p => decide (p.1 ∈ choice (majorityCount l) (minorityCount l)))).map
        Prod.snd := by
    unfold random_downsample
    rw [List.filter_append]
    have ha : (l.filter (fun x => decide (x.y = smallestValue l))).filter
        (fun x => decide (x.y = highestValue l)) = [] := by
      apply List.filter_eq_nil_iff.mpr
      intro a ha
      have := (List.mem_filter.mp ha).2
      simp only [decide_eq_true_eq] at this
      simp [this, smallest_ne_highest l]
    have hb : (((l.filter (fun x => decide (x.y = highestValue l))).enum.filter
        (fun p => decide (p.1 ∈ choice (majorityCount l) (minorityCount l)))).map
        Prod.snd).filter (fun x => decide (x.y = highestValue l)) =
        ((l.filter (fun x => decide (x.y = highestValue l))).enum.filter
        (fun p => decide (p.1 ∈ choice (majorityCount l) (minorityCount l)))).map
        Prod.snd :=
      List.filter_eq_self.mpr (fun a ha => by simp [hmaj_labels a ha])
    rw [ha, hb, List.nil_append]
  refine ⟨fun l2 h => by rw [h], ?_, ?_, ?_⟩
  · unfold random_downsample
    exact List.prefix_append _ _
  · by_cases h : positiveNum l < negativeNum l
    · have hh : highestValue l = 0 := by simp [highestValue, h]
      rw [hh] at e2 hmajlen
      rw [e2, hmajlen, minorityCount_eq]
    · have hs : smallestValue l = 0 := by simp [smallestValue, h]
      rw [hs] at e1
      rw [e1]
      have : (l.filter (fun x => decide (x.y = 0))).length = negativeNum l := rfl
      rw [this, min_eq_left (by omega)]
  · by_cases h : positiveNum l < negativeNum l
    · have hs : smallestValue l = 1 := by simp [smallestValue, h]
      rw [hs] at e1
      rw [e1]
      have : (l.filter (fun x => decide (x.y = 1))).length = positiveNum l := rfl
      rw [this, min_eq_right (by omega)]
    · have hh : highestValue l = 1 := by simp [highestValue, h]
      rw [hh] at e2 hmajlen
      rw [e2, hmajlen, minorityCount_eq]

/-- C6 witness: on the list with labels (0, 1, 0) and the concrete valid
draw, the balanced output has one sample of each label and keeps the
minority sample up front. -/
theorem claim_C6_witness :
    ((random_downsample rangeChoice sampleList).filter
      (fun x => decide (x.y = 0))).length = 1 ∧
    ((random_downsample rangeChoice sampleList).filter
      (fun x => decide (x.y = 1))).length = 1 ∧
    (sampleList.filter (fun x => decide (x.y = smallestValue sampleList))) <+:
      random_downsample rangeChoice sampleList := by
  have hc : ValidChoice rangeChoice := fun n k hk =>
    ⟨List.nodup_range k, List.length_range k,
      fun m hm => lt_of_lt_of_le (List.mem_range.mp hm) hk⟩
  have h := claim_C6_downsample rangeChoice hc sampleList (by decide)
  exact ⟨h.2.2.1, h.2.2.2, h.2.1⟩

/-! ## Claims about the normalizer -/

theorem transposeM_shape {m : List (List ℚ)} {T N : ℕ} (hT : m.length = T)
    (hN : ∀ r ∈ m, r.length = N) (hm : m ≠ []) :
    (transposeM m).length = N ∧ ∀ r ∈ transposeM m, r.length = T := by
  have hcols : numCols m = N := by
    cases m with
    | nil => exact absurd rfl hm
    | cons r rest => exact hN r (List.mem_cons_self r rest)
  constructor
  · simp [transposeM, hcols]
  · intro r hr
    simp only [transposeM] at hr
    obtain ⟨j, _, rfl⟩ := List.mem_map.mp hr
    simp [hT]

theorem reshapeRows_length (ks : List ℕ) (xs : List ℚ) :
    (reshapeRows ks xs).length = ks.length := by
  induction ks generalizing xs with
  | nil => rfl
  | cons k ks ih => simp [reshapeRows, ih]

theorem reshapeRows_row_length {N : ℕ} :
    ∀ (ks : List ℕ) (xs : List ℚ), (∀ k ∈ ks, k = N) → ks.sum ≤ xs.length →
      ∀ r ∈ reshapeRows ks xs, r.length = N := by
  intro ks
  induction ks with
  | nil => intro xs _ _ r hr; exact absurd hr (List.not_mem_nil r)
  | cons k ks ih =>
    intro xs hall hsum r hr
    rcases List.mem_cons.mp hr with rfl | hr
    · have hk : k = N := hall k (List.mem_cons_self k ks)
      have : k ≤ xs.length := by
        have := hsum
        simp only [List.sum_cons] at this
        omega
      simp [List.length_take, hk.symm ▸ this]
      omega
    · refine ih (xs.drop k) (fun a ha => hall a (List.mem_cons_of_mem k ha)) ?_ r hr
      simp only [List.sum_cons] at hsum
      simp [List.length_drop]
      omega

theorem robustScaleColumns_shape {m : List (List ℚ)} {T N : ℕ}
    (hT : m.length = T) (hN : ∀ r ∈ m, r.length = N) :
    (robustScaleColumns m).length = T ∧
      ∀ r ∈ robustScaleColumns m, r.length = N := by
  constructor
  · simp [robustScaleColumns, hT]
  · intro r hr
    simp only [robustScaleColumns] at hr
    obtain ⟨s, hs, rfl⟩ := List.mem_map.mp hr
    simp [List.enum_length, hN s hs]

theorem robustScalePooled_shape {m : List (List ℚ)} {T N : ℕ}
    (hT : m.length = T) (hN : ∀ r ∈ m, r.length = N) :
    (robustScalePooled m).length = T ∧
      ∀ r ∈ robustScalePooled m, r.length = N := by
  constructor
  · simp [robustScalePooled, reshapeRows_length, hT]
  · intro r hr
    refine reshapeRows_row_length (m.map List.length) _
      (fun k hk => ?_) ?_ r hr
    · obtain ⟨s, hs, rfl⟩ := List.mem_map.mp hk
      exact hN s hs
    · show (m.map List.length).sum ≤ (m.flatten.map _).length
      rw [List.length_map, List.length_flatten]

/-- C7: for every valid time × node block with strictly more timepoints
than nodes, `normalise_timeseries` returns a node × time block — `N` rows
of length `T` — in each of its three modes. -/
theorem claim_C7_normalise_shape (ts : List (List ℚ)) (T N : ℕ)
    (norm : Normalisation) (hT : ts.length = T) (hN : ∀ r ∈ ts, r.length = N)
    (hTN : N < T) :
    (normalise_timeseries ts norm).length = N ∧
      ∀ r ∈ normalise_timeseries ts norm, r.length = T := by
  have hne : ts ≠ [] := by
    intro h
    rw [h] at hT
    simp at hT
    omega
  cases norm with
  | roi =>
    obtain ⟨h1, h2⟩ := robustScaleColumns_shape hT hN
    have hne2 : robustScaleColumns ts ≠ [] := by
      intro h
      rw [h] at h1
      simp at h1
      omega
    exact transposeM_shape h1 h2 hne2
  | subject =>
    obtain ⟨h1, h2⟩ := robustScalePooled_shape hT hN
    have hne2 : robustScalePooled ts ≠ [] := by
      intro h
      rw [h] at h1
      simp at h1
      omega
    exact transposeM_shape h1 h2 hne2
  | nonorm => exact transposeM_shape hT hN hne

/-- C7 witness: the 2 × 1 block `[[1], [2]]` comes back as a 1 × 2 block in
all three modes. -/
theorem claim_C7_witness :
    (normalise_timeseries [[(1 : ℚ)], [2]] Normalisation.roi).length = 1 ∧
    (normalise_timeseries [[(1 : ℚ)], [2]] Normalisation.subject).length = 1 ∧
    (normalise_timeseries [[(1 : ℚ)], [2]] Normalisation.nonorm).length = 1 :=
  have hN : ∀ r ∈ [[(1 : ℚ)], [2]], r.length = 1 := by
    intro r hr
    rcases List.mem_cons.mp hr with rfl | hr
    · rfl
    · rcases List.mem_cons.mp hr with rfl | hr
      · rfl
      · exact absurd hr (List.not_mem_nil r)
  ⟨(claim_C7_normalise_shape [[(1 : ℚ)], [2]] 2 1 Normalisation.roi rfl hN
      (by norm_num)).1,
   (claim_C7_normalise_shape [[(1 : ℚ)], [2]] 2 1 Normalisation.subject rfl hN
      (by norm_num)).1,
   (claim_C7_normalise_shape [[(1 : ℚ)], [2]] 2 1 Normalisation.nonorm rfl hN
      (by norm_num)).1⟩

/-! ## Claims about the descriptor bank -/

theorem getD_map_range {f : ℕ → List ℚ} {L j : ℕ} (hj : j < L) :
    ((List.range L).map f).getD j [] = f j := by
  rw [List.getD_eq_getElem?_getD, List.getElem?_map, List.getElem?_range hj]
  rfl

theorem getD_map_fn {g : List ℚ → ℚ} {ts : List (List ℚ)} {j : ℕ}
    (hj : j < ts.length) :
    (ts.map g).getD j 0 = g (ts.getD j []) := by
  rw [List.getD_eq_getElem?_getD, List.getElem?_map, List.getElem?_eq_getElem hj]
  rw [List.getD_eq_getElem ts [] hj]
  rfl

theorem numCols_mergedStats (D : ExternalDescriptors) (ts : List (List ℚ)) :
    numCols (mergedStats D ts) = ts.length := by
  show (ts.map npMean).length = ts.length
  rw [List.length_map]

/-- C9: on every block that passes the shape assert, the descriptor bank
returns one row per node, each row exactly the 16 descriptors in the fixed
order mean, std, min, max, skewness, kurtosis, approximate entropy,
permutation entropy, sample entropy, spectral entropy, SVD entropy, DFA,
Higuchi FD, Katz FD, Petrosian FD, Hurst exponent. -/
theorem claim_C9_descriptor_bank (D : ExternalDescriptors)
    (ts out : List (List ℚ))
    (hok : calculate_stats_features D ts = Except.ok out) :
    out.length = ts.length ∧ (∀ r ∈ out, r.length = 16) ∧
    ∀ j, j < ts.length → out.getD j [] =
      [npMean (ts.getD j []), D.std (ts.getD j []), npMin (ts.getD j []),
       npMax (ts.getD j []), D.skew (ts.getD j []), D.kurtosis (ts.getD j []),
       D.app_entropy (ts.getD j []), D.perm_entropy (ts.getD j []),
       D.sample_entropy (ts.getD j []), D.spectral_entropy (ts.getD j []),
       D.svd_entropy (ts.getD j []), D.detrended_fluctuation (ts.getD j []),
       D.higuchi_fd (ts.getD j []), D.katz_fd (ts.getD j []),
       D.petrosian_fd (ts.getD j []), D.hurst_rs (ts.getD j [])] := by
  have hout : out = transposeM (mergedStats D ts) := by
    unfold calculate_stats_features at hok
    by_cases h : ts.length < numCols ts
    · rw [if_pos h] at hok
      exact (Except.ok.inj hok).symm
    · rw [if_neg h] at hok
      simp at hok
  subst hout
  refine ⟨?_, ?_, ?_⟩
  · show ((List.range (numCols (mergedStats D ts))).map _).length = ts.length
    rw [List.length_map, List.length_range, numCols_mergedStats]
  · intro r hr
    simp only [transposeM] at hr
    obtain ⟨j, _, rfl⟩ := List.mem_map.mp hr
    simp [mergedStats]
  · intro j hj
    show ((List.range (numCols (mergedStats D ts))).map
      (fun j => (mergedStats D ts).map (fun r => r.getD j 0))).getD j [] = _
    rw [getD_map_range (by rw [numCols_mergedStats]; exact hj)]
    simp only [mergedStats, List.map_cons, List.map_nil]
    simp only [getD_map_fn hj]

/-- C9 witness: the concrete 1 × 2 block `[[1, 2]]` with the all-zero
external descriptors produces one 16-entry row in the stated order. -/
theorem claim_C9_witness :
    (transposeM (mergedStats zeroDescriptors [[(1 : ℚ), 2]])).length = 1 ∧
    (transposeM (mergedStats zeroDescriptors [[(1 : ℚ), 2]])).getD 0 [] =
      [npMean ([[(1 : ℚ), 2]].getD 0 []),
       zeroDescriptors.std ([[(1 : ℚ), 2]].getD 0 []),
       npMin ([[(1 : ℚ), 2]].getD 0 []), npMax ([[(1 : ℚ), 2]].getD 0 []),
       zeroDescriptors.skew ([[(1 : ℚ), 2]].getD 0 []),
       zeroDescriptors.kurtosis ([[(1 : ℚ), 2]].getD 0 []),
       zeroDescriptors.app_entropy ([[(1 : ℚ), 2]].getD 0 []),
       zeroDescriptors.perm_entropy ([[(1 : ℚ), 2]].getD 0 []),
       zeroDescriptors.sample_entropy ([[(1 : ℚ), 2]].getD 0 []),
       zeroDescriptors.spectral_entropy ([[(1 : ℚ), 2]].getD 0 []),
       zeroDescriptors.svd_entropy ([[(1 : ℚ), 2]].getD 0 []),
       zeroDescriptors.detrended_fluctuation ([[(1 : ℚ), 2]].getD 0 []),
       zeroDescriptors.higuchi_fd ([[(1 : ℚ), 2]].getD 0 []),
       zeroDescriptors.katz_fd ([[(1 : ℚ), 2]].getD 0 []),
       zeroDescriptors.petrosian_fd ([[(1 : ℚ), 2]].getD 0 []),
       zeroDescriptors.hurst_rs ([[(1 : ℚ), 2]].getD 0 [])] :=
  have h := claim_C9_descriptor_bank zeroDescriptors [[(1 : ℚ), 2]]
    (transposeM (mergedStats zeroDescriptors [[(1 : ℚ), 2]])) rfl
  ⟨h.1, h.2.2 0 (by norm_num)⟩

/-- C10: the descriptor bank has an assertion precondition: it fails with
the assertion error exactly when the block has at least as many rows
(nodes) as columns (timepoints), and produces output exactly when there
are strictly more timepoints than nodes. -/
theorem claim_C10_assert_precondition (D : ExternalDescriptors)
    (ts : List (List ℚ)) :
    (calculate_stats_features D ts = Except.error statsAssertMsg ↔
      numCols ts ≤ ts.length) ∧
    ((∃ out, calculate_stats_features D ts = Except.ok out) ↔
      ts.length < numCols ts) := by
  unfold calculate_stats_features
  by_cases h : ts.length < numCols ts
  · rw [if_pos h]
    constructor
    · constructor
      · intro hq
        exact absurd hq (by simp)
      · intro hq
        omega
    · exact ⟨fun _ => h, fun _ => ⟨_, rfl⟩⟩
  · rw [if_neg h]
    constructor
    · exact ⟨fun _ => by omega, fun _ => rfl⟩
    · constructor
      · rintro ⟨out, hq⟩
        exact absurd hq (by simp)
      · intro hq
        exact absurd hq h
